import Mathlib

/-!
# Verification of the nested-type extractor

A shallow embedding of `src/type_extractor/__init__.py`: a recursive walk
over Python type-annotation values that collects every nested type, with a
visited set guarding against cycles, and a top-level wrapper that subtracts
a default ignore set.

Annotation values are modelled by the inductive `Node`; the runtime facts
the code reads through reflection (`issubclass(·, BaseModel)` with
`model_fields`, `is_dataclass` with `fields`) are supplied by an `Env`.
Python's `get_origin` / `get_args` become the structural functions of the
same names.  The recursion is fuel-indexed (`none` = fuel exhausted); the
output also carries a ghost `trace` listing, in order, the nodes that
passed the visited-set guard and entered the dispatch body — the `result`
and `seen` components mirror the source exactly and the trace is pure
instrumentation for the no-revisit properties.
-/

/-- A Python value that can occur in a type annotation, in the visited set or
in a result set.

* `cls n` — a class object (builtin or user), identified by its name:
  `cls "int"`, `cls "list"`, `cls "NoneType"` (= `type(None)`),
  `cls "EllipsisType"` (= `type(Ellipsis)`), `cls "UnionType"`
  (= `types.UnionType`, which is itself a class), user model classes …
* `marker n` — a `typing` special form that is not a class:
  `marker "Union"`, `marker "Annotated"`, `marker "List"`, `marker "Tuple"`.
* `generic o args` — a parameterized generic alias with origin `o` and
  argument list `args` (e.g. `dict[str, int]`, `Union[A, None]`,
  `Annotated[T, m]`).
* `noneV` — the value `None` itself.
* `strLit s` — a string object (e.g. an unresolved forward reference stored
  as a dataclass field's declared type).
* `inst tag` — an arbitrary non-type instance (e.g. the metadata payload of
  an `Annotated[...]`, or the `Ellipsis` value). -/
inductive Node where
  | cls (name : String)
  | marker (name : String)
  | generic (origin : Node) (args : List Node)
  | noneV
  | strLit (s : String)
  | inst (tag : String)

mutual

/-- Structural equality test on annotation nodes (Python compares annotation
values structurally, so set membership is structural). -/
def nodeBeq : Node → Node → Bool
  | .cls a, .cls b => a == b
  | .marker a, .marker b => a == b
  | .generic o1 l1, .generic o2 l2 => nodeBeq o1 o2 && nodeListBeq l1 l2
  | .noneV, .noneV => true
  | .strLit a, .strLit b => a == b
  | .inst a, .inst b => a == b
  | _, _ => false

/-- Pointwise structural equality of argument lists. -/
def nodeListBeq : List Node → List Node → Bool
  | [], [] => true
  | x :: xs, y :: ys => nodeBeq x y && nodeListBeq xs ys
  | _, _ => false

end

mutual

theorem nodeBeq_iff : ∀ a b : Node, nodeBeq a b = true ↔ a = b
  | .cls a, b => by cases b <;> simp [nodeBeq]
  | .marker a, b => by cases b <;> simp [nodeBeq]
  | .generic o1 l1, b => by
    cases b <;> simp only [nodeBeq, Bool.and_eq_true, reduceCtorEq,
      Node.generic.injEq, iff_false, not_false_eq_true, false_iff,
      Bool.false_eq_true, not_false_iff]
    case generic o2 l2 => rw [nodeBeq_iff o1 o2, nodeListBeq_iff l1 l2]
  | .noneV, b => by cases b <;> simp [nodeBeq]
  | .strLit a, b => by cases b <;> simp [nodeBeq]
  | .inst a, b => by cases b <;> simp [nodeBeq]

theorem nodeListBeq_iff : ∀ l1 l2 : List Node, nodeListBeq l1 l2 = true ↔ l1 = l2
  | [], [] => by simp [nodeListBeq]
  | [], _ :: _ => by simp [nodeListBeq]
  | _ :: _, [] => by simp [nodeListBeq]
  | x :: xs, y :: ys => by
    simp only [nodeListBeq, Bool.and_eq_true, List.cons.injEq]
    rw [nodeBeq_iff x y, nodeListBeq_iff xs ys]

end

instance : DecidableEq Node := fun a b => decidable_of_iff _ (nodeBeq_iff a b)

/-- `typing.get_origin`: the origin of a parameterized generic; the bare
`typing.List` / `typing.Tuple` aliases also report their builtin origin
(`get_origin(List) is list` in CPython); everything else reports `None`. -/
def get_origin : Node → Option Node
  | .generic o _ => some o
  | .marker "List" => some (.cls "list")
  | .marker "Tuple" => some (.cls "tuple")
  | _ => none

/-- `typing.get_args`: the arguments of a parameterized generic, `()`
otherwise. -/
def get_args : Node → List Node
  | .generic _ args => args
  | _ => []

/-- `isinstance(x, type)`: only class objects are types. -/
def is_type : Node → Bool
  | .cls _ => true
  | _ => false

/-- Python truthiness of a field's declared type (`if f.type:`): the empty
string and `None` are falsy, classes / aliases / non-empty strings truthy. -/
def truthy : Node → Bool
  | .strLit s => !s.isEmpty
  | .noneV => false
  | _ => true

/-- The reflective facts about classes: which class names are pydantic
`BaseModel` subclasses (with the `field.annotation` of each declared field,
in declaration order) and which are dataclasses (with the declared `f.type`
of each field, in order). -/
structure Env where
  pydanticFields : String → Option (List Node)
  dataclassFields : String → Option (List Node)

/-- `isinstance(x, type) and issubclass(x, BaseModel)`, returning the model
fields when it holds: only a class object can pass the check. -/
def Env.pydanticOf (env : Env) : Node → Option (List Node)
  | .cls n => env.pydanticFields n
  | _ => none

/-- `isinstance(x, type) and is_dataclass(x)`, returning the declared field
types when it holds. -/
def Env.dataclassOf (env : Env) : Node → Option (List Node)
  | .cls n => env.dataclassFields n
  | _ => none

/-- Output of one recursive call: the returned `result` set, the visited set
`seen` as it stands when the call returns (the Python code mutates it in
place), and the ghost `trace` of nodes that entered the dispatch body during
the call, in dispatch order. -/
structure Out where
  result : Finset Node
  seen : Finset Node
  trace : List Node
deriving DecidableEq

/-- The `for`-loops of the source: run `f` (one recursion level) over each
element of `l` that passes the guard `p`, threading the visited set through
the calls left to right and unioning the results, as
`result |= extract_all_nested_types_recursive(arg, seen)` does.  The guard
is the loop-body condition (`if f.type:` for dataclass fields,
`if arg is not type(None):` for union arguments, always-true elsewhere). -/
def extract_list_with (f : Node → Finset Node → Option Out) (p : Node → Bool) :
    List Node → Finset Node → Option Out
  | [], seen => some ⟨∅, seen, []⟩
  | x :: xs, seen =>
    if p x then
      match f x seen with
      | none => none
      | some o1 =>
        (extract_list_with f p xs o1.seen).map fun o2 =>
          ⟨o1.result ∪ o2.result, o2.seen, o1.trace ++ o2.trace⟩
    else
      extract_list_with f p xs seen

/-- `extract_all_nested_types_recursive(root_type, seen)`, fuel-indexed:
`none` means the fuel ran out before the walk finished.  Mirrors the source
branch for branch:

1. guard: `if root_type in seen: return set()`; then `seen.add(root_type)`;
2. pydantic `BaseModel` class: add the class, recurse on every field
   annotation, return;
3. dataclass: add the class, recurse on every truthy declared field type,
   return;
4. `origin is None`: `None` / `type(None)` contribute nothing; a class adds
   itself; anything else adds nothing;
5. parameterized generic: add the origin; `Union` recurses on the non-
   `type(None)` arguments, `Annotated` recurses on the first argument only
   (`args[0]` — an `IndexError` on an empty argument list is modelled as
   `none`), every other origin recurses on all arguments. -/
def extract_all_nested_types_recursive (env : Env) :
    Nat → Node → Finset Node → Option Out
  | 0, _, _ => none
  | fuel + 1, root_type, seen =>
    if root_type ∈ seen then
      some ⟨∅, seen, []⟩
    else
      let seen1 := insert root_type seen
      match env.pydanticOf root_type with
      | some flds =>
        (extract_list_with (extract_all_nested_types_recursive env fuel)
            (fun _ => true) flds seen1).map fun o =>
          ⟨insert root_type o.result, o.seen, root_type :: o.trace⟩
      | none =>
        match env.dataclassOf root_type with
        | some flds =>
          (extract_list_with (extract_all_nested_types_recursive env fuel)
              truthy flds seen1).map fun o =>
            ⟨insert root_type o.result, o.seen, root_type :: o.trace⟩
        | none =>
          match get_origin root_type with
          | none =>
            if root_type = .noneV ∨ root_type = .cls "NoneType" then
              some ⟨∅, seen1, [root_type]⟩
            else if is_type root_type then
              some ⟨{root_type}, seen1, [root_type]⟩
            else
              some ⟨∅, seen1, [root_type]⟩
          | some origin =>
            if origin = .marker "Union" then
              (extract_list_with (extract_all_nested_types_recursive env fuel)
                  (fun a => decide ¬a = Node.cls "NoneType") (get_args root_type)
                  seen1).map fun o =>
                ⟨insert origin o.result, o.seen, root_type :: o.trace⟩
            else if origin = .marker "Annotated" then
              match get_args root_type with
              | [] => none
              | real_type :: _ =>
                (extract_all_nested_types_recursive env fuel real_type
                    seen1).map fun o =>
                  ⟨insert origin o.result, o.seen, root_type :: o.trace⟩
            else
              (extract_list_with (extract_all_nested_types_recursive env fuel)
                  (fun _ => true) (get_args root_type) seen1).map fun o =>
                ⟨insert origin o.result, o.seen, root_type :: o.trace⟩

/-- The module-level `DEFAULT_IGNORE` set: `type(None)`, `type(Ellipsis)`,
`types.UnionType`, `typing.Union`, `list`, `typing.List`,
`typing.Annotated`, `tuple`, `typing.Tuple`. -/
def DEFAULT_IGNORE : Finset Node :=
  { .cls "NoneType", .cls "EllipsisType", .cls "UnionType", .marker "Union",
    .cls "list", .marker "List", .marker "Annotated", .cls "tuple",
    .marker "Tuple" }

/-- The public entry point `extract_all_nested_types(root_type, ignore=...)`:
run the recursive walk with a fresh visited set, then subtract `ignore`
unless it is `None` (`if ignore is not None: out -= ignore`).  The caller
passes `some DEFAULT_IGNORE` for the Python default. -/
def extract_all_nested_types (env : Env) (fuel : Nat) (root_type : Node)
    (ignore : Option (Finset Node)) : Option (Finset Node) :=
  (extract_all_nested_types_recursive env fuel root_type ∅).map fun o =>
    match ignore with
    | none => o.result
    | some ig => o.result \ ig

/-! ## Branch unfolding lemmas

One equation per branch of the dispatch, each conditioned on exactly the
checks the source performs before entering that branch. -/

theorem rec_fuel_zero (env : Env) (t : Node) (s : Finset Node) :
    extract_all_nested_types_recursive env 0 t s = none := rfl

/-- The cycle guard: a node already in the visited set returns the empty set
at once, leaves the visited set unchanged and dispatches nothing. -/
theorem rec_seen_mem (env : Env) (fuel : Nat) (t : Node) (s : Finset Node)
    (h : t ∈ s) :
    extract_all_nested_types_recursive env (fuel + 1) t s = some ⟨∅, s, []⟩ := by
  simp [extract_all_nested_types_recursive, h]

/-- Branch 1: a pydantic model class adds itself and folds over its field
annotations. -/
theorem rec_pydantic (env : Env) (fuel : Nat) (t : Node) (s : Finset Node)
    (flds : List Node) (hts : t ∉ s) (hp : env.pydanticOf t = some flds) :
    extract_all_nested_types_recursive env (fuel + 1) t s =
      (extract_list_with (extract_all_nested_types_recursive env fuel)
          (fun _ => true) flds (insert t s)).map fun o =>
        ⟨insert t o.result, o.seen, t :: o.trace⟩ := by
  simp [extract_all_nested_types_recursive, hts, hp]

/-- Branch 2: a dataclass adds itself and folds over its truthy declared
field types. -/
theorem rec_dataclass (env : Env) (fuel : Nat) (t : Node) (s : Finset Node)
    (flds : List Node) (hts : t ∉ s) (hp : env.pydanticOf t = none)
    (hd : env.dataclassOf t = some flds) :
    extract_all_nested_types_recursive env (fuel + 1) t s =
      (extract_list_with (extract_all_nested_types_recursive env fuel)
          truthy flds (insert t s)).map fun o =>
        ⟨insert t o.result, o.seen, t :: o.trace⟩ := by
  simp [extract_all_nested_types_recursive, hts, hp, hd]

/-- Branch 3: a node with no generic origin contributes `{t}` when it is a
class other than `None`/`type(None)`, and nothing otherwise. -/
theorem rec_no_origin (env : Env) (fuel : Nat) (t : Node) (s : Finset Node)
    (hts : t ∉ s) (hp : env.pydanticOf t = none) (hd : env.dataclassOf t = none)
    (ho : get_origin t = none) :
    extract_all_nested_types_recursive env (fuel + 1) t s =
      some ⟨if t = .noneV ∨ t = .cls "NoneType" then ∅
            else if is_type t then {t} else ∅, insert t s, [t]⟩ := by
  by_cases h1 : t = Node.noneV ∨ t = Node.cls "NoneType"
  · simp [extract_all_nested_types_recursive, hts, hp, hd, ho, h1]
  · by_cases h2 : is_type t <;>
      simp [extract_all_nested_types_recursive, hts, hp, hd, ho, h1, h2]

/-- Branch 4a: a `Union[...]` node adds the union marker and folds over the
arguments that are not `type(None)`. -/
theorem rec_union (env : Env) (fuel : Nat) (t : Node) (s : Finset Node)
    (hts : t ∉ s) (hp : env.pydanticOf t = none) (hd : env.dataclassOf t = none)
    (ho : get_origin t = some (.marker "Union")) :
    extract_all_nested_types_recursive env (fuel + 1) t s =
      (extract_list_with (extract_all_nested_types_recursive env fuel)
          (fun a => decide ¬a = Node.cls "NoneType") (get_args t)
          (insert t s)).map fun o =>
        ⟨insert (Node.marker "Union") o.result, o.seen, t :: o.trace⟩ := by
  simp [extract_all_nested_types_recursive, hts, hp, hd, ho]

/-- Branch 4b: an `Annotated[...]` node adds the annotation marker and
recurses on its first argument only. -/
theorem rec_annotated (env : Env) (fuel : Nat) (t : Node) (s : Finset Node)
    (a : Node) (rest : List Node) (hts : t ∉ s) (hp : env.pydanticOf t = none)
    (hd : env.dataclassOf t = none)
    (ho : get_origin t = some (.marker "Annotated"))
    (ha : get_args t = a :: rest) :
    extract_all_nested_types_recursive env (fuel + 1) t s =
      (extract_all_nested_types_recursive env fuel a (insert t s)).map fun o =>
        ⟨insert (Node.marker "Annotated") o.result, o.seen, t :: o.trace⟩ := by
  simp [extract_all_nested_types_recursive, hts, hp, hd, ho, ha]

/-- Branch 4b, degenerate: an `Annotated` origin with no arguments is the
`IndexError` of `args[0]`, modelled as failure. -/
theorem rec_annotated_nil (env : Env) (fuel : Nat) (t : Node) (s : Finset Node)
    (hts : t ∉ s) (hp : env.pydanticOf t = none) (hd : env.dataclassOf t = none)
    (ho : get_origin t = some (.marker "Annotated")) (ha : get_args t = []) :
    extract_all_nested_types_recursive env (fuel + 1) t s = none := by
  simp [extract_all_nested_types_recursive, hts, hp, hd, ho, ha]

/-- Branch 4c: any other parameterized generic adds its origin and folds over
all its arguments. -/
theorem rec_generic (env : Env) (fuel : Nat) (t : Node) (s : Finset Node)
    (og : Node) (hts : t ∉ s) (hp : env.pydanticOf t = none)
    (hd : env.dataclassOf t = none) (ho : get_origin t = some og)
    (hu : og ≠ .marker "Union") (han : og ≠ .marker "Annotated") :
    extract_all_nested_types_recursive env (fuel + 1) t s =
      (extract_list_with (extract_all_nested_types_recursive env fuel)
          (fun _ => true) (get_args t) (insert t s)).map fun o =>
        ⟨insert og o.result, o.seen, t :: o.trace⟩ := by
  simp [extract_all_nested_types_recursive, hts, hp, hd, ho, hu, han]

/-! ## The successor relation and graph-side predicates -/

/-- The nodes the dispatch body recurses on from `t`: the field annotations
of a pydantic class, the truthy field types of a dataclass, the
non-`type(None)` arguments of a `Union`, the first argument of an
`Annotated`, all arguments of any other generic, nothing otherwise. -/
def succs (env : Env) (t : Node) : List Node :=
  match env.pydanticOf t with
  | some flds => flds
  | none =>
    match env.dataclassOf t with
    | some flds => flds.filter truthy
    | none =>
      match get_origin t with
      | none => []
      | some og =>
        if og = .marker "Union" then
          (get_args t).filter fun a => decide ¬a = Node.cls "NoneType"
        else if og = .marker "Annotated" then (get_args t).take 1
        else get_args t

/-- `U` is closed under the traversal's successor relation: every node the
walk can recurse on from a node of `U` is again in `U`.  A finite closed `U`
containing the root is exactly "the reachable part of the type graph is
finite". -/
def Closed (env : Env) (U : Finset Node) : Prop :=
  ∀ t ∈ U, ∀ x ∈ succs env t, x ∈ U

/-- `t` is not a bare `Annotated` origin with an empty argument list (no
value produced by `typing` ever is: `Annotated[...]` always carries at least
the wrapped type). -/
def annotated_ok : Node → Bool
  | .generic (.marker "Annotated") [] => false
  | _ => true

/-- Every node of `U` is realizable as far as `Annotated` is concerned. -/
def AnnWF (U : Finset Node) : Prop := ∀ t ∈ U, annotated_ok t = true

/-- No dispatch step can ever add the value `b` to a result set: `b` is not
registered as a pydantic model nor as a dataclass, `b` is either not a class
at all or is `type(None)` (which branch 3 explicitly refuses to add), and no
node of `U` has `b` as its generic origin.  Instances: `b = type(None)` on
any realizable graph (CPython's `get_origin` never returns `type(None)` and
`type(None)` is never a record class), and any non-type value such as a
metadata payload. -/
def NotCollectable (env : Env) (U : Finset Node) (b : Node) : Prop :=
  env.pydanticOf b = none ∧ env.dataclassOf b = none ∧
    (is_type b = false ∨ b = Node.cls "NoneType") ∧
    ∀ t ∈ U, get_origin t ≠ some b

/-! ## The visited-set / trace invariant -/

/-- Invariant of one recursive call starting from visited set `s`: the
returned visited set is `s` plus exactly the dispatched nodes, no node was
dispatched twice, and no dispatched node had been visited before the call. -/
def TraceInv (s : Finset Node) (o : Out) : Prop :=
  o.seen = s ∪ o.trace.toFinset ∧ o.trace.Nodup ∧ ∀ x ∈ o.trace, x ∉ s

theorem inv_nil (s : Finset Node) : TraceInv s ⟨∅, s, []⟩ := by
  simp [TraceInv]

theorem inv_leaf (t : Node) (s : Finset Node) (res : Finset Node) (hts : t ∉ s) :
    TraceInv s ⟨res, insert t s, [t]⟩ := by
  refine ⟨?_, ?_, ?_⟩
  · ext x; simp [or_comm]
  · simp
  · simpa using hts

theorem inv_cons (t : Node) (s : Finset Node) (o : Out) (res : Finset Node)
    (hts : t ∉ s) (h : TraceInv (insert t s) o) :
    TraceInv s ⟨res, o.seen, t :: o.trace⟩ := by
  obtain ⟨hseen, hnd, hfresh⟩ := h
  refine ⟨?_, ?_, ?_⟩
  · simp only [hseen, List.toFinset_cons]
    rw [Finset.union_insert, Finset.insert_union]
  · exact List.nodup_cons.mpr ⟨fun hmem => hfresh t hmem (Finset.mem_insert_self t s), hnd⟩
  · intro x hx
    rcases List.mem_cons.mp hx with rfl | hx
    · exact hts
    · exact fun hxs => hfresh x hx (Finset.mem_insert_of_mem hxs)

theorem inv_append (s : Finset Node) (o1 o2 : Out) (res : Finset Node)
    (h1 : TraceInv s o1) (h2 : TraceInv o1.seen o2) :
    TraceInv s ⟨res, o2.seen, o1.trace ++ o2.trace⟩ := by
  obtain ⟨hs1, hnd1, hf1⟩ := h1
  obtain ⟨hs2, hnd2, hf2⟩ := h2
  refine ⟨?_, ?_, ?_⟩
  · rw [hs2, hs1]
    simp [Finset.union_assoc]
  · refine List.Nodup.append hnd1 hnd2 (List.disjoint_left.mpr ?_)
    intro x hx1 hx2
    exact hf2 x hx2 (by rw [hs1]; exact Finset.mem_union_right s (List.mem_toFinset.mpr hx1))
  · intro x hx
    rcases List.mem_append.mp hx with hx | hx
    · exact hf1 x hx
    · exact fun hxs => hf2 x hx (by rw [hs1]; exact Finset.mem_union_left _ hxs)

/-- The fold over a field/argument list preserves the invariant whenever the
per-element function does. -/
theorem list_inv (f : Node → Finset Node → Option Out)
    (hf : ∀ x s o, f x s = some o → TraceInv s o) (p : Node → Bool) :
    ∀ (l : List Node) (s : Finset Node) (o : Out),
      extract_list_with f p l s = some o → TraceInv s o := by
  intro l
  induction l with
  | nil =>
    intro s o h
    simp only [extract_list_with, Option.some.injEq] at h
    exact h ▸ inv_nil s
  | cons x xs ih =>
    intro s o h
    simp only [extract_list_with] at h
    by_cases hp : p x
    · rw [if_pos hp] at h
      cases hfx : f x s with
      | none => rw [hfx] at h; exact absurd h (by simp)
      | some o1 =>
        rw [hfx] at h
        obtain ⟨o2, h2, rfl⟩ := Option.map_eq_some'.mp h
        exact inv_append s o1 o2 _ (hf x s o1 hfx) (ih o1.seen o2 h2)
    · rw [if_neg hp] at h
      exact ih s o h

/-- Every successful recursive call satisfies the invariant: in particular it
only ever grows the visited set, and it never dispatches a node twice. -/
theorem rec_inv (env : Env) :
    ∀ (fuel : Nat) (t : Node) (s : Finset Node) (o : Out),
      extract_all_nested_types_recursive env fuel t s = some o → TraceInv s o := by
  intro fuel
  induction fuel with
  | zero => intro t s o h; exact absurd h (by simp [rec_fuel_zero])
  | succ fuel ih =>
    intro t s o h
    by_cases hts : t ∈ s
    · rw [rec_seen_mem env fuel t s hts] at h
      cases h
      exact inv_nil s
    · cases hp : env.pydanticOf t with
      | some flds =>
        rw [rec_pydantic env fuel t s flds hts hp] at h
        obtain ⟨o1, h1, rfl⟩ := Option.map_eq_some'.mp h
        exact inv_cons t s o1 _ hts (list_inv _ ih _ flds (insert t s) o1 h1)
      | none =>
        cases hd : env.dataclassOf t with
        | some flds =>
          rw [rec_dataclass env fuel t s flds hts hp hd] at h
          obtain ⟨o1, h1, rfl⟩ := Option.map_eq_some'.mp h
          exact inv_cons t s o1 _ hts (list_inv _ ih _ flds (insert t s) o1 h1)
        | none =>
          cases ho : get_origin t with
          | none =>
            rw [rec_no_origin env fuel t s hts hp hd ho] at h
            cases h
            exact inv_leaf t s _ hts
          | some og =>
            by_cases hu : og = Node.marker "Union"
            · subst hu
              rw [rec_union env fuel t s hts hp hd ho] at h
              obtain ⟨o1, h1, rfl⟩ := Option.map_eq_some'.mp h
              exact inv_cons t s o1 _ hts (list_inv _ ih _ _ (insert t s) o1 h1)
            · by_cases han : og = Node.marker "Annotated"
              · subst han
                cases ha : get_args t with
                | nil =>
                  rw [rec_annotated_nil env fuel t s hts hp hd ho ha] at h
                  exact absurd h (by simp)
                | cons a rest =>
                  rw [rec_annotated env fuel t s a rest hts hp hd ho ha] at h
                  obtain ⟨o1, h1, rfl⟩ := Option.map_eq_some'.mp h
                  exact inv_cons t s o1 _ hts (ih a (insert t s) o1 h1)
              · rw [rec_generic env fuel t s og hts hp hd ho hu han] at h
                obtain ⟨o1, h1, rfl⟩ := Option.map_eq_some'.mp h
                exact inv_cons t s o1 _ hts (list_inv _ ih _ _ (insert t s) o1 h1)

/-- A successful call only grows the visited set. -/
theorem rec_seen_grows (env : Env) (fuel : Nat) (t : Node) (s : Finset Node)
    (o : Out) (h : extract_all_nested_types_recursive env fuel t s = some o) :
    s ⊆ o.seen := by
  rw [(rec_inv env fuel t s o h).1]
  exact Finset.subset_union_left

/-! ## Closure: the walk stays inside a closed universe, and `type(None)`
never enters a result set -/

/-- Fold version of `rec_closedU`: if the per-element function keeps the
visited set inside `U` and never collects a `NotCollectable` value, so does
the fold, provided every guard-passing element is in `U`. -/
theorem list_closedU (env : Env) (U : Finset Node)
    (f : Node → Finset Node → Option Out)
    (hf : ∀ x s o, x ∈ U → s ⊆ U → f x s = some o →
      (o.seen ⊆ U ∧ ∀ b, NotCollectable env U b → b ∉ o.result) ∧
        s ⊆ o.seen)
    (p : Node → Bool) :
    ∀ (l : List Node) (s : Finset Node) (o : Out),
      (∀ x ∈ l, p x = true → x ∈ U) → s ⊆ U →
      extract_list_with f p l s = some o →
      o.seen ⊆ U ∧ ∀ b, NotCollectable env U b → b ∉ o.result := by
  intro l
  induction l with
  | nil =>
    intro s o hl hs h
    simp only [extract_list_with, Option.some.injEq] at h
    subst h
    exact ⟨hs, fun b _ => Finset.not_mem_empty b⟩
  | cons x xs ih =>
    intro s o hl hs h
    simp only [extract_list_with] at h
    by_cases hp : p x
    · rw [if_pos hp] at h
      cases hfx : f x s with
      | none => rw [hfx] at h; exact absurd h (by simp)
      | some o1 =>
        rw [hfx] at h
        obtain ⟨o2, h2, rfl⟩ := Option.map_eq_some'.mp h
        have h1 := hf x s o1 (hl x (List.mem_cons_self x xs) hp) hs hfx
        have hx2 := ih o1.seen o2
          (fun y hy hpy => hl y (List.mem_cons_of_mem x hy) hpy) h1.1.1 h2
        exact ⟨hx2.1, fun b hb =>
          Finset.not_mem_union.mpr ⟨h1.1.2 b hb, hx2.2 b hb⟩⟩
    · rw [if_neg hp] at h
      exact ih s o (fun y hy hpy => hl y (List.mem_cons_of_mem x hy) hpy) hs h

/-- Main closure lemma: starting from a node of a `Closed` universe `U` with
a visited set inside `U`, a successful call keeps the visited set inside `U`,
and a `NotCollectable` value is never in the returned result. -/
theorem rec_closedU (env : Env) (U : Finset Node) (hC : Closed env U) :
    ∀ (fuel : Nat) (t : Node) (s : Finset Node) (o : Out), t ∈ U → s ⊆ U →
      extract_all_nested_types_recursive env fuel t s = some o →
      o.seen ⊆ U ∧ ∀ b, NotCollectable env U b → b ∉ o.result := by
  intro fuel
  induction fuel with
  | zero => intro t s o _ _ h; exact absurd h (by simp [rec_fuel_zero])
  | succ fuel ih =>
    intro t s o htU hs h
    have hins : insert t s ⊆ U := Finset.insert_subset htU hs
    have hf : ∀ x s' o', x ∈ U → s' ⊆ U →
        extract_all_nested_types_recursive env fuel x s' = some o' →
        (o'.seen ⊆ U ∧ ∀ b, NotCollectable env U b → b ∉ o'.result) ∧
          s' ⊆ o'.seen :=
      fun x s' o' hx hs' h' =>
        ⟨ih x s' o' hx hs' h', rec_seen_grows env fuel x s' o' h'⟩
    by_cases hts : t ∈ s
    · rw [rec_seen_mem env fuel t s hts] at h
      cases h
      exact ⟨hs, fun b _ => Finset.not_mem_empty b⟩
    · cases hp : env.pydanticOf t with
      | some flds =>
        rw [rec_pydantic env fuel t s flds hts hp] at h
        obtain ⟨o1, h1, rfl⟩ := Option.map_eq_some'.mp h
        have hsucc : ∀ x ∈ flds, x ∈ U := by
          have := hC t htU
          simpa [succs, hp] using this
        have hlist := list_closedU env U _ hf (fun _ => true) flds (insert t s)
          o1 (fun x hx _ => hsucc x hx) hins h1
        refine ⟨hlist.1, fun b hb => ?_⟩
        have htn : t ≠ b := by
          rintro rfl
          rw [hb.1] at hp
          exact Option.noConfusion hp
        simp only [Finset.mem_insert, not_or]
        exact ⟨fun hcontra => htn hcontra.symm, hlist.2 b hb⟩
      | none =>
        cases hd : env.dataclassOf t with
        | some flds =>
          rw [rec_dataclass env fuel t s flds hts hp hd] at h
          obtain ⟨o1, h1, rfl⟩ := Option.map_eq_some'.mp h
          have hsucc : ∀ x ∈ flds, truthy x = true → x ∈ U := by
            have h2 := hC t htU
            simp only [succs, hp, hd] at h2
            exact fun x hx htr => h2 x (List.mem_filter.mpr ⟨hx, htr⟩)
          have hlist := list_closedU env U _ hf truthy flds (insert t s)
            o1 hsucc hins h1
          refine ⟨hlist.1, fun b hb => ?_⟩
          have htn : t ≠ b := by
            rintro rfl
            rw [hb.2.1] at hd
            exact Option.noConfusion hd
          simp only [Finset.mem_insert, not_or]
          exact ⟨fun hcontra => htn hcontra.symm, hlist.2 b hb⟩
        | none =>
          cases ho : get_origin t with
          | none =>
            rw [rec_no_origin env fuel t s hts hp hd ho] at h
            cases h
            refine ⟨hins, fun b hb => ?_⟩
            split_ifs with h1 h2
            · simp
            · push_neg at h1
              simp only [Finset.mem_singleton]
              rintro rfl
              rcases hb.2.2.1 with hbt | hbt
              · rw [hbt] at h2
                exact Bool.noConfusion h2
              · exact h1.2 hbt
            · simp
          | some og =>
            by_cases hu : og = Node.marker "Union"
            · subst hu
              rw [rec_union env fuel t s hts hp hd ho] at h
              obtain ⟨o1, h1, rfl⟩ := Option.map_eq_some'.mp h
              have hsucc : ∀ x ∈ get_args t,
                  (decide ¬x = Node.cls "NoneType") = true → x ∈ U := by
                have h2 := hC t htU
                simp only [succs, hp, hd, ho, if_pos rfl] at h2
                exact fun x hx hne => h2 x (List.mem_filter.mpr ⟨hx, hne⟩)
              have hlist := list_closedU env U _ hf _ (get_args t) (insert t s)
                o1 hsucc hins h1
              refine ⟨hlist.1, fun b hb => ?_⟩
              simp only [Finset.mem_insert, not_or]
              refine ⟨fun hcontra => hb.2.2.2 t htU ?_, hlist.2 b hb⟩
              rw [← hcontra] at ho
              exact ho
            · by_cases han : og = Node.marker "Annotated"
              · subst han
                cases ha : get_args t with
                | nil =>
                  rw [rec_annotated_nil env fuel t s hts hp hd ho ha] at h
                  exact absurd h (by simp)
                | cons a rest =>
                  rw [rec_annotated env fuel t s a rest hts hp hd ho ha] at h
                  obtain ⟨o1, h1, rfl⟩ := Option.map_eq_some'.mp h
                  have haU : a ∈ U := by
                    have h2 := hC t htU
                    simp only [succs, hp, hd, ho, hu, if_neg hu, if_pos rfl, ha,
                      List.take_succ_cons, List.take_zero] at h2
                    exact h2 a (List.mem_singleton_self a)
                  have hrec := ih a (insert t s) o1 haU hins h1
                  refine ⟨hrec.1, fun b hb => ?_⟩
                  simp only [Finset.mem_insert, not_or]
                  refine ⟨fun hcontra => hb.2.2.2 t htU ?_, hrec.2 b hb⟩
                  rw [← hcontra] at ho
                  exact ho
              · rw [rec_generic env fuel t s og hts hp hd ho hu han] at h
                obtain ⟨o1, h1, rfl⟩ := Option.map_eq_some'.mp h
                have hsucc : ∀ x ∈ get_args t, x ∈ U := by
                  have h2 := hC t htU
                  simpa [succs, hp, hd, ho, hu, han] using h2
                have hlist := list_closedU env U _ hf _ (get_args t) (insert t s)
                  o1 (fun x hx _ => hsucc x hx) hins h1
                refine ⟨hlist.1, fun b hb => ?_⟩
                simp only [Finset.mem_insert, not_or]
                refine ⟨fun hcontra => hb.2.2.2 t htU ?_, hlist.2 b hb⟩
                rw [← hcontra] at ho
                exact ho

/-- Inversion: only a parameterized generic has the `Annotated` marker as
origin. -/
theorem eq_generic_of_origin_annotated (t : Node)
    (h : get_origin t = some (Node.marker "Annotated")) :
    t = Node.generic (Node.marker "Annotated") (get_args t) := by
  unfold get_origin at h
  split at h
  · obtain rfl := Option.some.inj h
    rfl
  · exact absurd h (by simp)
  · exact absurd h (by simp)
  · exact absurd h (by simp)

/-! ## Totality: enough fuel always exists on a finite closed graph -/

/-- Fold version of `rec_total`. -/
theorem list_total (U : Finset Node) (f : Node → Finset Node → Option Out)
    (s0 : Finset Node)
    (hf : ∀ x s, x ∈ U → s0 ⊆ s → s ⊆ U →
      ∃ o, f x s = some o ∧ s ⊆ o.seen ∧ o.seen ⊆ U)
    (p : Node → Bool) :
    ∀ (l : List Node) (s : Finset Node), (∀ x ∈ l, p x = true → x ∈ U) →
      s0 ⊆ s → s ⊆ U →
      ∃ o, extract_list_with f p l s = some o ∧ s ⊆ o.seen ∧ o.seen ⊆ U := by
  intro l
  induction l with
  | nil =>
    intro s hl h0 hs
    exact ⟨⟨∅, s, []⟩, by simp [extract_list_with], Finset.Subset.refl s, hs⟩
  | cons x xs ih =>
    intro s hl h0 hs
    by_cases hp : p x
    · obtain ⟨o1, ho1, hso1, ho1U⟩ :=
        hf x s (hl x (List.mem_cons_self x xs) hp) h0 hs
      obtain ⟨o2, ho2, hso2, ho2U⟩ := ih o1.seen
        (fun y hy hpy => hl y (List.mem_cons_of_mem x hy) hpy)
        (h0.trans hso1) ho1U
      refine ⟨⟨o1.result ∪ o2.result, o2.seen, o1.trace ++ o2.trace⟩, ?_,
        hso1.trans hso2, ho2U⟩
      simp [extract_list_with, if_pos hp, ho1, ho2]
    · obtain ⟨o2, ho2, hso2, ho2U⟩ := ih s
        (fun y hy hpy => hl y (List.mem_cons_of_mem x hy) hpy) h0 hs
      refine ⟨o2, ?_, hso2, ho2U⟩
      simp [extract_list_with, if_neg hp, ho2]

/-- Totality: on a finite universe `U` closed under the successor relation,
with every node realizable (`AnnWF`), any fuel exceeding the number of
not-yet-visited nodes of `U` lets the walk finish. -/
theorem rec_total (env : Env) (U : Finset Node) (hC : Closed env U)
    (hA : AnnWF U) :
    ∀ (fuel : Nat) (t : Node) (s : Finset Node), t ∈ U → s ⊆ U →
      (U \ s).card < fuel →
      ∃ o, extract_all_nested_types_recursive env fuel t s = some o := by
  intro fuel
  induction fuel with
  | zero => intro t s _ _ hcard; omega
  | succ fuel ih =>
    intro t s htU hs hcard
    by_cases hts : t ∈ s
    · exact ⟨⟨∅, s, []⟩, rec_seen_mem env fuel t s hts⟩
    · have hins : insert t s ⊆ U := Finset.insert_subset htU hs
      have hcard1 : (U \ insert t s).card < fuel := by
        have ht' : t ∈ U \ s := Finset.mem_sdiff.mpr ⟨htU, hts⟩
        have hlt : (U \ insert t s).card < (U \ s).card := by
          apply Finset.card_lt_card
          rw [Finset.ssubset_iff_of_subset
            (Finset.sdiff_subset_sdiff (Finset.Subset.refl U)
              (Finset.subset_insert t s))]
          exact ⟨t, ht', by simp⟩
        omega
      have hf : ∀ x s', x ∈ U → insert t s ⊆ s' → s' ⊆ U →
          ∃ o, extract_all_nested_types_recursive env fuel x s' = some o ∧
            s' ⊆ o.seen ∧ o.seen ⊆ U := by
        intro x s' hx h0 hs'
        have hcard' : (U \ s').card < fuel :=
          lt_of_le_of_lt (Finset.card_le_card
            (Finset.sdiff_subset_sdiff (Finset.Subset.refl U) h0)) hcard1
        obtain ⟨o, ho⟩ := ih x s' hx hs' hcard'
        exact ⟨o, ho, rec_seen_grows env fuel x s' o ho,
          (rec_closedU env U hC fuel x s' o hx hs' ho).1⟩
      cases hp : env.pydanticOf t with
      | some flds =>
        have hsucc : ∀ x ∈ flds, x ∈ U := by simpa [succs, hp] using hC t htU
        obtain ⟨o1, ho1, _, _⟩ := list_total U _ (insert t s) hf (fun _ => true)
          flds (insert t s) (fun x hx _ => hsucc x hx) (Finset.Subset.refl _) hins
        exact ⟨_, by rw [rec_pydantic env fuel t s flds hts hp, ho1]; rfl⟩
      | none =>
        cases hd : env.dataclassOf t with
        | some flds =>
          have hsucc : ∀ x ∈ flds, truthy x = true → x ∈ U := by
            have h2 := hC t htU
            simp only [succs, hp, hd] at h2
            exact fun x hx htr => h2 x (List.mem_filter.mpr ⟨hx, htr⟩)
          obtain ⟨o1, ho1, _, _⟩ := list_total U _ (insert t s) hf truthy
            flds (insert t s) hsucc (Finset.Subset.refl _) hins
          exact ⟨_, by rw [rec_dataclass env fuel t s flds hts hp hd, ho1]; rfl⟩
        | none =>
          cases ho : get_origin t with
          | none =>
            exact ⟨_, rec_no_origin env fuel t s hts hp hd ho⟩
          | some og =>
            by_cases hu : og = Node.marker "Union"
            · subst hu
              have hsucc : ∀ x ∈ get_args t,
                  (decide ¬x = Node.cls "NoneType") = true → x ∈ U := by
                have h2 := hC t htU
                simp only [succs, hp, hd, ho, if_pos rfl] at h2
                exact fun x hx hne => h2 x (List.mem_filter.mpr ⟨hx, hne⟩)
              obtain ⟨o1, ho1, _, _⟩ := list_total U _ (insert t s) hf _
                (get_args t) (insert t s) hsucc (Finset.Subset.refl _) hins
              exact ⟨_, by rw [rec_union env fuel t s hts hp hd ho, ho1]; rfl⟩
            · by_cases han : og = Node.marker "Annotated"
              · subst han
                cases ha : get_args t with
                | nil =>
                  exfalso
                  have hshape := eq_generic_of_origin_annotated t ho
                  rw [ha] at hshape
                  have ht := hA t htU
                  rw [hshape] at ht
                  simp [annotated_ok] at ht
                | cons a rest =>
                  have haU : a ∈ U := by
                    have h2 := hC t htU
                    simp only [succs, hp, hd, ho, hu, if_neg hu, if_pos rfl, ha,
                      List.take_succ_cons, List.take_zero] at h2
                    exact h2 a (List.mem_singleton_self a)
                  obtain ⟨o1, ho1⟩ := ih a (insert t s) haU hins hcard1
                  exact ⟨_, by
                    rw [rec_annotated env fuel t s a rest hts hp hd ho ha, ho1]
                    rfl⟩
              · have hsucc : ∀ x ∈ get_args t, x ∈ U := by
                  have h2 := hC t htU
                  simpa [succs, hp, hd, ho, hu, han] using h2
                obtain ⟨o1, ho1, _, _⟩ := list_total U _ (insert t s) hf
                  (fun _ => true) (get_args t) (insert t s)
                  (fun x hx _ => hsucc x hx) (Finset.Subset.refl _) hins
                refine ⟨⟨insert og o1.result, o1.seen, t :: o1.trace⟩, ?_⟩
                rw [rec_generic env fuel t s og hts hp hd ho hu han, ho1]
                rfl

/-! ## Decidability of the graph-side predicates, concrete environments -/

instance (env : Env) (U : Finset Node) : Decidable (Closed env U) :=
  inferInstanceAs (Decidable (∀ t ∈ U, ∀ x ∈ succs env t, x ∈ U))

instance (U : Finset Node) : Decidable (AnnWF U) :=
  inferInstanceAs (Decidable (∀ t ∈ U, annotated_ok t = true))

instance (env : Env) (U : Finset Node) (b : Node) :
    Decidable (NotCollectable env U b) :=
  inferInstanceAs (Decidable (env.pydanticOf b = none ∧
    env.dataclassOf b = none ∧
    (is_type b = false ∨ b = Node.cls "NoneType") ∧
    ∀ t ∈ U, get_origin t ≠ some b))

/-- The environment with no record classes at all. -/
def emptyEnv : Env where
  pydanticFields := fun _ => none
  dataclassFields := fun _ => none

/-- A small concrete environment: `Loop` is a self-referential pydantic model
(fields `int` and `Optional[Loop]`), `SelfRef` its dataclass analogue,
`StrNode` a dataclass whose second field's declared type is an unresolved
forward-reference string, and `Dual` a class registered both as a pydantic
model (field `int`) and as a dataclass (field `str`). -/
def testEnv : Env where
  pydanticFields := fun n =>
    if n = "Loop" then
      some [Node.cls "int",
        Node.generic (Node.marker "Union") [Node.cls "Loop", Node.cls "NoneType"]]
    else if n = "Dual" then some [Node.cls "int"]
    else none
  dataclassFields := fun n =>
    if n = "SelfRef" then
      some [Node.cls "int",
        Node.generic (Node.marker "Union")
          [Node.cls "SelfRef", Node.cls "NoneType"]]
    else if n = "StrNode" then
      some [Node.cls "int", Node.strLit "StrNode | None"]
    else if n = "Dual" then some [Node.cls "str"]
    else none

/-- The reachable nodes of `Loop`'s (cyclic) type graph. -/
def loopU : Finset Node :=
  {Node.cls "Loop", Node.cls "int",
    Node.generic (Node.marker "Union") [Node.cls "Loop", Node.cls "NoneType"]}

/-! ## The claims -/

/-- C1, counterexample to the claim as stated: bare `list` is a non-generic
concrete class with no declared fields — no pydantic model, no dataclass, no
generic origin — yet the top-level extractor with the default ignore set
returns `∅` on it, not `{list}`, because `list` is itself a member of the
default ignore set and is subtracted at the end. -/
theorem claim_C1_counterexample :
    emptyEnv.pydanticOf (Node.cls "list") = none ∧
    emptyEnv.dataclassOf (Node.cls "list") = none ∧
    get_origin (Node.cls "list") = none ∧
    is_type (Node.cls "list") = true ∧
    extract_all_nested_types emptyEnv 1 (Node.cls "list")
      (some DEFAULT_IGNORE) = some ∅ ∧
    (∅ : Finset Node) ≠ {Node.cls "list"} :=
  ⟨rfl, rfl, rfl, rfl, by decide, by decide⟩

/-- C1, amended: for every non-generic concrete class `T` with no declared
fields (not a pydantic model or a dataclass, or one with an empty field
list) that is *not itself a member of the default ignore set*, the top-level
extractor with the default ignore set returns exactly `{T}`. -/
theorem claim_C1 (env : Env) (fuel : Nat) (name : String)
    (hp : env.pydanticFields name = none ∨ env.pydanticFields name = some [])
    (hd : env.dataclassFields name = none ∨ env.dataclassFields name = some [])
    (hig : Node.cls name ∉ DEFAULT_IGNORE) :
    extract_all_nested_types env (fuel + 1) (Node.cls name)
      (some DEFAULT_IGNORE) = some {Node.cls name} := by
  have hts : Node.cls name ∉ (∅ : Finset Node) := Finset.not_mem_empty _
  have hsd : ({Node.cls name} : Finset Node) \ DEFAULT_IGNORE =
      {Node.cls name} := by
    rw [Finset.sdiff_eq_self_iff_disjoint, Finset.disjoint_singleton_left]
    exact hig
  have hrec : extract_all_nested_types_recursive env (fuel + 1)
      (Node.cls name) ∅ =
      some ⟨{Node.cls name}, {Node.cls name}, [Node.cls name]⟩ := by
    rcases hp with hp | hp
    · rcases hd with hd | hd
      · rw [rec_no_origin env fuel (Node.cls name) ∅ hts
          (by simp [Env.pydanticOf, hp]) (by simp [Env.dataclassOf, hd]) rfl]
        have hnn : ¬(Node.cls name = Node.noneV ∨
            Node.cls name = Node.cls "NoneType") := by
          rintro (h | h)
          · exact Node.noConfusion h
          · exact hig (by rw [h]; decide)
        rw [if_neg hnn]
        simp [is_type]
      · rw [rec_dataclass env fuel (Node.cls name) ∅ [] hts
          (by simp [Env.pydanticOf, hp]) (by simp [Env.dataclassOf, hd])]
        simp [extract_list_with]
    · rw [rec_pydantic env fuel (Node.cls name) ∅ [] hts
        (by simp [Env.pydanticOf, hp])]
      simp [extract_list_with]
  unfold extract_all_nested_types
  rw [hrec]
  simp only [Option.map_some']
  rw [hsd]

/-- Witness for the amended C1: `int` under the empty environment. -/
theorem claim_C1_witness :
    (emptyEnv.pydanticFields "int" = none ∨
      emptyEnv.pydanticFields "int" = some []) ∧
    (emptyEnv.dataclassFields "int" = none ∨
      emptyEnv.dataclassFields "int" = some []) ∧
    Node.cls "int" ∉ DEFAULT_IGNORE ∧
    extract_all_nested_types emptyEnv 1 (Node.cls "int")
      (some DEFAULT_IGNORE) = some {Node.cls "int"} :=
  ⟨Or.inl rfl, Or.inl rfl, by decide,
    claim_C1 emptyEnv 0 "int" (Or.inl rfl) (Or.inl rfl) (by decide)⟩

/-- C2: the default ignore set consists of exactly the nine stated values —
`type(None)`, `type(Ellipsis)`, `types.UnionType`, `typing.Union`, `list`,
`typing.List`, `typing.Annotated`, `tuple`, `typing.Tuple` — and passing a
disabled (`None`) ignore argument makes the top-level call return the raw
discovered set with no subtraction. -/
theorem claim_C2 :
    (DEFAULT_IGNORE = {Node.cls "NoneType", Node.cls "EllipsisType",
        Node.cls "UnionType", Node.marker "Union", Node.cls "list",
        Node.marker "List", Node.marker "Annotated", Node.cls "tuple",
        Node.marker "Tuple"} ∧ DEFAULT_IGNORE.card = 9) ∧
    ∀ (env : Env) (fuel : Nat) (root : Node),
      extract_all_nested_types env fuel root none =
        (extract_all_nested_types_recursive env fuel root ∅).map Out.result := by
  refine ⟨⟨rfl, by decide⟩, fun env fuel root => ?_⟩
  unfold extract_all_nested_types
  cases extract_all_nested_types_recursive env fuel root ∅ <;> rfl

/-- C7: extracting from the absence marker alone — the value `None` or its
type `type(None)` — returns the empty set under every ignore setting; the
non-parameterized branch returns the empty result for both (for `type(None)`
provided the environment does not register it as a record class, which
CPython never does). -/
theorem claim_C7 (env : Env) (fuel : Nat) (ig : Option (Finset Node))
    (hp : env.pydanticFields "NoneType" = none)
    (hd : env.dataclassFields "NoneType" = none) :
    extract_all_nested_types env (fuel + 1) Node.noneV ig = some ∅ ∧
    extract_all_nested_types env (fuel + 1) (Node.cls "NoneType") ig =
      some ∅ ∧
    extract_all_nested_types_recursive env (fuel + 1) Node.noneV ∅ =
      some ⟨∅, {Node.noneV}, [Node.noneV]⟩ ∧
    extract_all_nested_types_recursive env (fuel + 1) (Node.cls "NoneType") ∅ =
      some ⟨∅, {Node.cls "NoneType"}, [Node.cls "NoneType"]⟩ := by
  have h1 : extract_all_nested_types_recursive env (fuel + 1) Node.noneV ∅ =
      some ⟨∅, {Node.noneV}, [Node.noneV]⟩ := by
    rw [rec_no_origin env fuel Node.noneV ∅ (Finset.not_mem_empty _) rfl rfl rfl]
    rw [if_pos (Or.inl rfl)]
    simp
  have h2 : extract_all_nested_types_recursive env (fuel + 1)
      (Node.cls "NoneType") ∅ =
      some ⟨∅, {Node.cls "NoneType"}, [Node.cls "NoneType"]⟩ := by
    rw [rec_no_origin env fuel (Node.cls "NoneType") ∅ (Finset.not_mem_empty _)
      (by simp [Env.pydanticOf, hp]) (by simp [Env.dataclassOf, hd]) rfl]
    rw [if_pos (Or.inr rfl)]
    simp
  refine ⟨?_, ?_, h1, h2⟩
  · unfold extract_all_nested_types
    rw [h1]
    cases ig <;> simp
  · unfold extract_all_nested_types
    rw [h2]
    cases ig <;> simp

/-- Witness for C7: the empty environment, both ignore settings represented
by the default one. -/
theorem claim_C7_witness :
    emptyEnv.pydanticFields "NoneType" = none ∧
    emptyEnv.dataclassFields "NoneType" = none ∧
    extract_all_nested_types emptyEnv 1 Node.noneV (some DEFAULT_IGNORE) =
      some ∅ ∧
    extract_all_nested_types emptyEnv 1 (Node.cls "NoneType")
      (some DEFAULT_IGNORE) = some ∅ :=
  ⟨rfl, rfl, (claim_C7 emptyEnv 0 (some DEFAULT_IGNORE) rfl rfl).1,
    (claim_C7 emptyEnv 0 (some DEFAULT_IGNORE) rfl rfl).2.1⟩

/-- C9: filtering is pure post-hoc set subtraction — the top-level call with
a non-disabled ignore set `I` equals the call with filtering disabled minus
`I`; the ignore argument is not consulted by the recursive walk at all
(`extract_all_nested_types_recursive` does not take it), so it can influence
neither the traversal nor any intermediate result. -/
theorem claim_C9 (env : Env) (fuel : Nat) (x : Node) (I : Finset Node) :
    extract_all_nested_types env fuel x (some I) =
      (extract_all_nested_types env fuel x none).map (fun r => r \ I) := by
  unfold extract_all_nested_types
  cases extract_all_nested_types_recursive env fuel x ∅ <;> rfl

/-- C10: every input that is not `None`, not a class and has no generic
origin — an unresolved forward-reference string, an arbitrary non-type
instance — extracts to the empty set without error, under any ignore
setting; in particular a dataclass field whose declared type is stored as an
unresolved string (`StrNode`) contributes nothing to the result instead of
failing. -/
theorem claim_C10 (env : Env) (fuel : Nat) (ig : Option (Finset Node))
    (t : Node) (hcls : is_type t = false) (hnone : t ≠ Node.noneV)
    (ho : get_origin t = none) :
    extract_all_nested_types env (fuel + 1) t ig = some ∅ ∧
    extract_all_nested_types testEnv 3 (Node.cls "StrNode")
      (some DEFAULT_IGNORE) = some {Node.cls "StrNode", Node.cls "int"} := by
  constructor
  · have hp : env.pydanticOf t = none := by
      cases t <;> simp_all [Env.pydanticOf, is_type]
    have hd : env.dataclassOf t = none := by
      cases t <;> simp_all [Env.dataclassOf, is_type]
    have hnc : ¬(t = Node.noneV ∨ t = Node.cls "NoneType") := by
      rintro (rfl | rfl)
      · exact hnone rfl
      · exact Bool.noConfusion hcls
    unfold extract_all_nested_types
    rw [rec_no_origin env fuel t ∅ (Finset.not_mem_empty _) hp hd ho]
    rw [if_neg hnc, if_neg (by simp [hcls])]
    cases ig <;> simp
  · decide

/-- Witness for C10: an unresolved forward-reference string. -/
theorem claim_C10_witness :
    is_type (Node.strLit "Loop | None") = false ∧
    Node.strLit "Loop | None" ≠ Node.noneV ∧
    get_origin (Node.strLit "Loop | None") = none ∧
    extract_all_nested_types emptyEnv 1 (Node.strLit "Loop | None")
      (some DEFAULT_IGNORE) = some ∅ :=
  ⟨rfl, by decide, rfl,
    (claim_C10 emptyEnv 0 (some DEFAULT_IGNORE) (Node.strLit "Loop | None")
      rfl (by decide) rfl).1⟩

/-- C3: on any type graph whose reachable annotation nodes form a finite set
`U` closed under the successor relation (self- and mutual references, i.e.
cycles, allowed) and consisting of realizable nodes, the recursive traversal
from any node of `U` terminates — fuel `|U| + 1` suffices — and no node
enters the dispatch body twice within the one top-level call. -/
theorem claim_C3 (env : Env) (U : Finset Node) (hC : Closed env U)
    (hA : AnnWF U) (t : Node) (htU : t ∈ U) :
    ∃ o, extract_all_nested_types_recursive env (U.card + 1) t ∅ = some o ∧
      o.trace.Nodup := by
  obtain ⟨o, ho⟩ := rec_total env U hC hA (U.card + 1) t ∅ htU
    (Finset.empty_subset U) (by simp)
  exact ⟨o, ho, (rec_inv env (U.card + 1) t ∅ o ho).2.1⟩

/-- Witness for C3: the self-referential pydantic model `Loop`, whose type
graph is a genuine cycle. -/
theorem claim_C3_witness :
    ∃ o, extract_all_nested_types_recursive testEnv (loopU.card + 1)
        (Node.cls "Loop") ∅ = some o ∧ o.trace.Nodup :=
  claim_C3 testEnv loopU (by decide) (by decide) (Node.cls "Loop") (by decide)

/-- C4: a recursive call on a node already in the visited set returns the
empty set immediately — the node is not re-added by that call — and for a
self-referential dataclass (`SelfRef`, whose second field refers back to the
enclosing class through a union) the traversal terminates with the enclosing
class in the result, dispatched exactly once, at its first visit (the head
of the trace). -/
theorem claim_C4 (env : Env) (fuel : Nat) (t : Node) (s : Finset Node)
    (hts : t ∈ s) :
    extract_all_nested_types_recursive env (fuel + 1) t s = some ⟨∅, s, []⟩ ∧
    ((extract_all_nested_types_recursive testEnv 5
        (Node.cls "SelfRef") ∅).map Out.result =
      some {Node.cls "SelfRef", Node.cls "int", Node.marker "Union"} ∧
      (extract_all_nested_types_recursive testEnv 5
          (Node.cls "SelfRef") ∅).map Out.trace =
        some [Node.cls "SelfRef", Node.cls "int",
          Node.generic (Node.marker "Union")
            [Node.cls "SelfRef", Node.cls "NoneType"]] ∧
      Node.cls "SelfRef" ∈
        ({Node.cls "SelfRef", Node.cls "int", Node.marker "Union"} :
          Finset Node) ∧
      List.count (Node.cls "SelfRef")
        [Node.cls "SelfRef", Node.cls "int",
          Node.generic (Node.marker "Union")
            [Node.cls "SelfRef", Node.cls "NoneType"]] = 1) :=
  ⟨rec_seen_mem env fuel t s hts, by decide, by decide, by decide, by decide⟩

/-- Witness for C4: a call on `int` with `int` already visited. -/
theorem claim_C4_witness :
    Node.cls "int" ∈ ({Node.cls "int"} : Finset Node) ∧
    extract_all_nested_types_recursive emptyEnv 3 (Node.cls "int")
      {Node.cls "int"} = some ⟨∅, {Node.cls "int"}, []⟩ :=
  ⟨by decide,
    (claim_C4 emptyEnv 2 (Node.cls "int") {Node.cls "int"} (by decide)).1⟩

/-- C8: dispatch on a class follows the stated precedence and each record
branch returns without falling through: a pydantic model class is added and
every field annotation folded over, regardless of whether the class is also
a dataclass; a dataclass (that is not a pydantic model) is added and every
truthy declared field type folded over.  In both cases the right-hand side
is the branch's complete behavior — the non-parameterized and generic
handling is never reached. -/
theorem claim_C8 (env : Env) (fuel : Nat) (t : Node) (s : Finset Node)
    (hts : t ∉ s) :
    (∀ flds, env.pydanticOf t = some flds →
      extract_all_nested_types_recursive env (fuel + 1) t s =
        (extract_list_with (extract_all_nested_types_recursive env fuel)
            (fun _ => true) flds (insert t s)).map
          (fun o => ⟨insert t o.result, o.seen, t :: o.trace⟩)) ∧
    (∀ flds, env.pydanticOf t = none → env.dataclassOf t = some flds →
      extract_all_nested_types_recursive env (fuel + 1) t s =
        (extract_list_with (extract_all_nested_types_recursive env fuel)
            truthy flds (insert t s)).map
          (fun o => ⟨insert t o.result, o.seen, t :: o.trace⟩)) :=
  ⟨fun flds hp => rec_pydantic env fuel t s flds hts hp,
    fun flds hp hd => rec_dataclass env fuel t s flds hts hp hd⟩

/-- Witness for C8: `Dual` is registered both as a pydantic model (field
list `[int]`) and as a dataclass (field list `[str]`); the pydantic branch
wins. -/
theorem claim_C8_witness :
    testEnv.pydanticOf (Node.cls "Dual") = some [Node.cls "int"] ∧
    testEnv.dataclassOf (Node.cls "Dual") = some [Node.cls "str"] ∧
    extract_all_nested_types_recursive testEnv 3 (Node.cls "Dual") ∅ =
      (extract_list_with (extract_all_nested_types_recursive testEnv 2)
          (fun _ => true) [Node.cls "int"] (insert (Node.cls "Dual") ∅)).map
        (fun o => ⟨insert (Node.cls "Dual") o.result, o.seen,
          Node.cls "Dual" :: o.trace⟩) :=
  ⟨by decide, by decide,
    (claim_C8 testEnv 2 (Node.cls "Dual") ∅ (by decide)).1
      [Node.cls "int"] (by decide)⟩

/-- C6: a metadata-annotated node adds the annotation marker and recurses
only on its first argument — the equation gives the branch's complete
behavior, in which the trailing arguments (the metadata payloads) are never
touched; consequently a payload that is `NotCollectable` (in particular any
non-type payload on a realizable graph) never appears in the result; and
concretely, `Annotated[List[int], "meta"]` with filtering disabled yields
exactly `{list, int, Annotated}`, without the payload. -/
theorem claim_C6 (env : Env) (U : Finset Node) (fuel : Nat) (a : Node)
    (rest : List Node) (s : Finset Node)
    (hts : Node.generic (Node.marker "Annotated") (a :: rest) ∉ s) :
    (extract_all_nested_types_recursive env (fuel + 1)
        (Node.generic (Node.marker "Annotated") (a :: rest)) s =
      (extract_all_nested_types_recursive env fuel a
          (insert (Node.generic (Node.marker "Annotated") (a :: rest)) s)).map
        (fun o => ⟨insert (Node.marker "Annotated") o.result, o.seen,
          Node.generic (Node.marker "Annotated") (a :: rest) :: o.trace⟩)) ∧
    (∀ o, Closed env U →
      Node.generic (Node.marker "Annotated") (a :: rest) ∈ U → s ⊆ U →
      extract_all_nested_types_recursive env (fuel + 1)
          (Node.generic (Node.marker "Annotated") (a :: rest)) s = some o →
      ∀ b ∈ rest, NotCollectable env U b → b ∉ o.result) ∧
    ((extract_all_nested_types emptyEnv 3
        (Node.generic (Node.marker "Annotated")
          [Node.generic (Node.cls "list") [Node.cls "int"], Node.inst "meta"])
        none).isSome = true ∧
      (extract_all_nested_types emptyEnv 3
        (Node.generic (Node.marker "Annotated")
          [Node.generic (Node.cls "list") [Node.cls "int"], Node.inst "meta"])
        none).getD ∅ =
        {Node.cls "list", Node.cls "int", Node.marker "Annotated"} ∧
      Node.inst "meta" ∉
        ({Node.cls "list", Node.cls "int", Node.marker "Annotated"} :
          Finset Node)) := by
  refine ⟨rec_annotated env fuel _ s a rest hts rfl rfl rfl rfl, ?_,
    by decide, by decide, by decide⟩
  intro o hC hU hsU ho b _ hb
  exact (rec_closedU env U hC (fuel + 1) _ s o hU hsU ho).2 b hb

/-- Witness for C6: the `Annotated[List[int], "meta"]` example itself, with
the payload `"meta"` shown `NotCollectable`. -/
theorem claim_C6_witness :
    (extract_all_nested_types_recursive emptyEnv 3
        (Node.generic (Node.marker "Annotated")
          [Node.generic (Node.cls "list") [Node.cls "int"], Node.inst "meta"])
        ∅ =
      (extract_all_nested_types_recursive emptyEnv 2
          (Node.generic (Node.cls "list") [Node.cls "int"])
          (insert (Node.generic (Node.marker "Annotated")
            [Node.generic (Node.cls "list") [Node.cls "int"],
              Node.inst "meta"]) ∅)).map
        (fun o => ⟨insert (Node.marker "Annotated") o.result, o.seen,
          Node.generic (Node.marker "Annotated")
            [Node.generic (Node.cls "list") [Node.cls "int"],
              Node.inst "meta"] :: o.trace⟩)) :=
  (claim_C6 emptyEnv ∅ 2 (Node.generic (Node.cls "list") [Node.cls "int"])
    [Node.inst "meta"] ∅ (by decide)).1

/-- C5: a parameterized union node (`typing.Union` origin) adds the union
marker to the result and then recurses on exactly those arguments that are
not `type(None)` — the equation gives the branch's complete behavior; hence
for `Optional[T] = Union[T, None]` with filtering disabled the top-level
result is exactly the union marker plus `T`'s closure (the result of `T`'s
own recursive walk), and it never contains the absence-marker type
`type(None)` (on a realizable graph, where `type(None)` is
`NotCollectable`). -/
theorem claim_C5 (env : Env) (U : Finset Node) (fuel : Nat) (T : Node)
    (hC : Closed env U) (hNC : NotCollectable env U (Node.cls "NoneType"))
    (hopt : Node.generic (Node.marker "Union") [T, Node.cls "NoneType"] ∈ U)
    (hT : T ≠ Node.cls "NoneType") :
    (∀ (args : List Node) (s : Finset Node),
      Node.generic (Node.marker "Union") args ∉ s →
      extract_all_nested_types_recursive env (fuel + 1)
          (Node.generic (Node.marker "Union") args) s =
        (extract_list_with (extract_all_nested_types_recursive env fuel)
            (fun a => decide ¬a = Node.cls "NoneType") args
            (insert (Node.generic (Node.marker "Union") args) s)).map
          (fun o => ⟨insert (Node.marker "Union") o.result, o.seen,
            Node.generic (Node.marker "Union") args :: o.trace⟩)) ∧
    (∀ r, extract_all_nested_types env (fuel + 1)
          (Node.generic (Node.marker "Union") [T, Node.cls "NoneType"]) none =
        some r →
      Node.marker "Union" ∈ r ∧ Node.cls "NoneType" ∉ r ∧
        ∃ oT, extract_all_nested_types_recursive env fuel T
            {Node.generic (Node.marker "Union") [T, Node.cls "NoneType"]} =
              some oT ∧
          r = insert (Node.marker "Union") oT.result) := by
  have hbranch : ∀ (args : List Node) (s : Finset Node),
      Node.generic (Node.marker "Union") args ∉ s →
      extract_all_nested_types_recursive env (fuel + 1)
          (Node.generic (Node.marker "Union") args) s =
        (extract_list_with (extract_all_nested_types_recursive env fuel)
            (fun a => decide ¬a = Node.cls "NoneType") args
            (insert (Node.generic (Node.marker "Union") args) s)).map
          (fun o => ⟨insert (Node.marker "Union") o.result, o.seen,
            Node.generic (Node.marker "Union") args :: o.trace⟩) :=
    fun args s hts => rec_union env fuel _ s hts rfl rfl rfl
  refine ⟨hbranch, ?_⟩
  intro r hr
  have hpT : (decide ¬T = Node.cls "NoneType") = true := decide_eq_true hT
  cases hfT : extract_all_nested_types_recursive env fuel T
      {Node.generic (Node.marker "Union") [T, Node.cls "NoneType"]} with
  | none =>
    have hnone : extract_all_nested_types env (fuel + 1)
        (Node.generic (Node.marker "Union") [T, Node.cls "NoneType"]) none =
        none := by
      unfold extract_all_nested_types
      rw [hbranch [T, Node.cls "NoneType"] ∅ (Finset.not_mem_empty _)]
      simp [extract_list_with, hpT, hfT]
    rw [hnone] at hr
    exact absurd hr (by simp)
  | some oT =>
    have hall : extract_all_nested_types env (fuel + 1)
        (Node.generic (Node.marker "Union") [T, Node.cls "NoneType"]) none =
        some (insert (Node.marker "Union") oT.result) := by
      unfold extract_all_nested_types
      rw [hbranch [T, Node.cls "NoneType"] ∅ (Finset.not_mem_empty _)]
      simp [extract_list_with, hpT, hfT]
    rw [hall] at hr
    obtain rfl : r = insert (Node.marker "Union") oT.result :=
      (Option.some.inj hr).symm
    have hsuccs : succs env (Node.generic (Node.marker "Union")
        [T, Node.cls "NoneType"]) =
        List.filter (fun a => decide ¬a = Node.cls "NoneType")
          [T, Node.cls "NoneType"] := rfl
    have hTU : T ∈ U := hC _ hopt T (by
      rw [hsuccs]
      exact List.mem_filter.mpr ⟨List.mem_cons_self T _, hpT⟩)
    have hnotin := (rec_closedU env U hC fuel T _ oT hTU
      (Finset.singleton_subset_iff.mpr hopt) hfT).2 _ hNC
    refine ⟨Finset.mem_insert_self _ _, ?_, oT, rfl, rfl⟩
    simp only [Finset.mem_insert, not_or]
    exact ⟨by simp, hnotin⟩

/-- Witness for C5: `Optional[int]` under the empty environment. -/
theorem claim_C5_witness :
    Node.marker "Union" ∈
      ({Node.marker "Union", Node.cls "int"} : Finset Node) ∧
    Node.cls "NoneType" ∉
      ({Node.marker "Union", Node.cls "int"} : Finset Node) ∧
    ∃ oT, extract_all_nested_types_recursive emptyEnv 2 (Node.cls "int")
        {Node.generic (Node.marker "Union")
          [Node.cls "int", Node.cls "NoneType"]} = some oT ∧
      ({Node.marker "Union", Node.cls "int"} : Finset Node) =
        insert (Node.marker "Union") oT.result :=
  (claim_C5 emptyEnv
      {Node.generic (Node.marker "Union") [Node.cls "int", Node.cls "NoneType"],
        Node.cls "int"} 2 (Node.cls "int") (by decide) (by decide) (by decide)
      (by decide)).2
    {Node.marker "Union", Node.cls "int"} (by decide)
